import Mathlib

/-!
Shallow embedding of the student grade record manager
(`src/app.py`, CLI variant; `src/app1.py`, Streamlit variant).

The store is a Python dict mapping integer roll numbers to lists of
numeric marks.  Python dicts preserve insertion order and have unique
keys, so we model the store as an association list `List (Int × List ℚ)`
in insertion order; the unique-keys property is stated as an explicit
hypothesis where a theorem needs it.  Python marks are ints or floats;
all inputs are small decimal values and `calculate_stats` coerces every
mark through `float`, so we model mark values uniformly as rationals.
-/

namespace GradeApp

/-- `NUM_SUBJECTS` from the configuration block of both variants. -/
def NUM_SUBJECTS : Nat := 5

/-- The in-memory `grades` dict: roll number → list of marks,
in insertion order with unique keys (Python dict semantics). -/
abbrev Store := List (Int × List ℚ)

/-- Python `grades[roll]` / `grades.get(roll)`: first (and, for a dict,
only) binding of `roll`. -/
def lookupRoll : Store → Int → Option (List ℚ)
  | [], _ => none
  | (k, v) :: rest, r => if k = r then some v else lookupRoll rest r

/-- Python `roll in grades`. -/
def hasRoll (g : Store) (r : Int) : Bool :=
  (lookupRoll g r).isSome

/-- Python `grades[roll] = marks`: replace the value in place if the key
exists, otherwise append the new binding at the end (dict insertion
order). -/
def dictSet : Store → Int → List ℚ → Store
  | [], r, v => [(r, v)]
  | (k, w) :: rest, r, v =>
      if k = r then (r, v) :: rest else (k, w) :: dictSet rest r v

/-- Python `del grades[roll]`: remove the binding of `roll` (a dict has
at most one). -/
def dictDel : Store → Int → Store
  | [], _ => []
  | (k, w) :: rest, r => if k = r then rest else (k, w) :: dictDel rest r

/-! ### Decimal rendering and parsing of roll keys

`save_grades` runs `str(k)` on each integer key and `load_grades` runs
`int(roll_str)` on each JSON string key.  We model Python's `str` on an
int as decimal rendering with a leading `-` for negatives, and `int` on
a string as parsing an optional `-` followed by a non-empty run of
decimal digits (the grammar that covers every string `str` produces;
`int` raising `ValueError` is modelled as `none`). -/

/-- Decimal digits of `n`, most significant first; the first argument is
structural fuel (any bound `≥ n` works, since `n / 10 < n` for `n > 0`). -/
def toDecimalAux : Nat → Nat → List Char
  | 0, _ => []
  | fuel + 1, n =>
      if n = 0 then []
      else toDecimalAux fuel (n / 10) ++ [Nat.digitChar (n % 10)]

/-- Decimal rendering of a natural number (Python `str` on a
non-negative int). -/
def toDecimal (n : Nat) : List Char :=
  if n = 0 then ['0'] else toDecimalAux (n + 1) n

/-- Python `str(k)` for an int key `k` (line `to_save = {str(k): v ...}`
of `save_grades`). -/
def pyStr (i : Int) : String :=
  if i < 0 then ⟨'-' :: toDecimal i.natAbs⟩ else ⟨toDecimal i.toNat⟩

/-- Value of a decimal digit character, `none` if not a digit. -/
def charDigit? (c : Char) : Option Nat :=
  if '0' ≤ c && c ≤ '9' then some (c.toNat - 48) else none

/-- Left-to-right accumulation of a digit string's value; fails on the
first non-digit. -/
def parseNatCore (acc : Nat) : List Char → Option Nat
  | [] => some acc
  | c :: cs =>
      match charDigit? c with
      | some d => parseNatCore (acc * 10 + d) cs
      | none => none

/-- Parse a non-empty run of decimal digits. -/
def parseNat? (cs : List Char) : Option Nat :=
  match cs with
  | [] => none
  | _ => parseNatCore 0 cs

/-- Python `int(s)` (line `{int(roll_str): marks_list ...}` of
`load_grades`): optional minus sign, then digits; `none` models
`ValueError`. -/
def pyInt? (s : String) : Option Int :=
  match s.data with
  | [] => none
  | c :: cs =>
      if c = '-' then (parseNat? cs).map (fun n => -(n : Int))
      else (parseNat? (c :: cs)).map (fun n => (n : Int))

/-! ### Python string normalization

`get_valid_roll` runs `input(...).strip()` and `delete_grades` runs
`input(...).strip().lower()`.  We model `strip` as dropping ASCII
whitespace from both ends and `lower` as ASCII lowercasing (all inputs
of interest are ASCII). -/

/-- Whitespace for the purposes of Python `str.strip()`. -/
def isPySpace (c : Char) : Bool :=
  c = ' ' || c = '\t' || c = '\n' || c = '\r'

/-- Python `str.strip()`. -/
def pyStrip (s : String) : String :=
  ⟨((s.data.dropWhile isPySpace).reverse.dropWhile isPySpace).reverse⟩

/-- ASCII lowercasing of one character. -/
def pyLowerChar (c : Char) : Char :=
  if 'A' ≤ c && c ≤ 'Z' then Char.ofNat (c.toNat + 32) else c

/-- Python `str.lower()`. -/
def pyLower (s : String) : String :=
  ⟨s.data.map pyLowerChar⟩

/-! ### Statistics -/

/-- `calculate_stats(marks)` (identical in both variants): the
`[float(m) for m in marks]` coercion is the identity in our uniform
rational model; `avg` is `total / len(...)` when the list is non-empty
and `0` otherwise. -/
def calculate_stats (marks : List ℚ) : ℚ × ℚ :=
  let total := marks.sum
  let avg := if marks.isEmpty then 0 else total / (marks.length : ℚ)
  (total, avg)

/-! ### Persistence (`load_grades` / `save_grades`)

The backing file `grades.json` is either absent, unparsable as JSON
(`json.JSONDecodeError`), or a JSON object whose keys are strings and
whose values are arrays of numbers — the only shape `save_grades` ever
writes and the shape `load_grades`'s dict comprehension consumes.  A
JSON object is an ordered sequence of string/value pairs. -/

/-- The state of the backing `grades.json` file. -/
inductive FileContent where
  | absent : FileContent
  | corrupt : FileContent
  | valid : List (String × List ℚ) → FileContent
  deriving DecidableEq

/-- The object `save_grades` serializes:
`to_save = {str(k): v for k, v in grades.items()}`. -/
def saveEntries (g : Store) : List (String × List ℚ) :=
  g.map (fun p => (pyStr p.1, p.2))

/-- `save_grades(grades)`: writes `to_save` as the new file content.
(The surrounding `try/except` reports I/O failures without touching the
in-memory dict; we model the successful write.) -/
def save_grades (g : Store) : FileContent :=
  .valid (saveEntries g)

/-- The dict comprehension of `load_grades`,
`{int(roll_str): marks_list for roll_str, marks_list in data.items()}`:
builds a dict in iteration order; `int` raising `ValueError` on any key
aborts the whole comprehension (caught by the generic `except`). -/
def loadEntries : List (String × List ℚ) → Store → Option Store
  | [], acc => some acc
  | (s, v) :: rest, acc =>
      match pyInt? s with
      | some r => loadEntries rest (dictSet acc r v)
      | none => none

/-- `load_grades()`: empty dict if the file is absent; empty dict plus a
printed warning (the `Bool` component) if the file is corrupt or the
key conversion raises; otherwise the converted dict with no warning. -/
def load_grades (f : FileContent) : Store × Bool :=
  match f with
  | .absent => ([], false)
  | .corrupt => ([], true)
  | .valid entries =>
      match loadEntries entries [] with
      | some g => (g, false)
      | none => ([], true)

/-! ### User-input validation (`get_valid_roll` / `get_valid_marks`)

Both functions loop on `input(...)` until a valid value arrives.  We
model the console as a list of pending input tokens and return `none`
when the list is exhausted before a valid value arrives (in the program
the loop would simply keep prompting).  For marks the code runs
`float(s)` and then range-checks; we model each token by the outcome of
the `float` call — `none` for an empty string or a `ValueError`, `some
m` for the parsed numeric value (`int(m) if m == int(m) else m` keeps
that value unchanged, only its Python type differs). -/

/-- One iteration set of the inner `while True` loop of
`get_valid_marks`: skip tokens until one parses and lies in `[0, 100]`,
rejecting out-of-range values with the re-prompt message. -/
def getMark : List (Option ℚ) → Option (ℚ × List (Option ℚ))
  | [] => none
  | tok :: rest =>
      match tok with
      | none => getMark rest
      | some m => if m < 0 ∨ m > 100 then getMark rest else some (m, rest)

/-- The `for i in range(1, NUM_SUBJECTS + 1)` loop: collect `n` validated
marks in order, threading the remaining input. -/
def getMarks : Nat → List (Option ℚ) → Option (List ℚ × List (Option ℚ))
  | 0, ins => some ([], ins)
  | n + 1, ins =>
      match getMark ins with
      | none => none
      | some (m, rest) =>
          match getMarks n rest with
          | none => none
          | some (ms, rest2) => some (m :: ms, rest2)

/-- `get_valid_marks()`: marks for all `NUM_SUBJECTS` subjects. -/
def get_valid_marks (ins : List (Option ℚ)) :
    Option (List ℚ × List (Option ℚ)) :=
  getMarks NUM_SUBJECTS ins

/-- `get_valid_roll()`: skip inputs until one is non-empty after
stripping and parses as an int; any parseable integer (zero and
negatives included) is accepted. -/
def get_valid_roll : List String → Option (Int × List String)
  | [] => none
  | s :: rest =>
      let val := pyStrip s
      if val = "" then get_valid_roll rest
      else
        match pyInt? val with
        | some r => some (r, rest)
        | none => get_valid_roll rest

/-- Modelled from `src/app1.py` line 84: the web add form's roll input
is `st.number_input("Roll Number", min_value=1, step=1)`, so the form
can only submit integer rolls `≥ 1`. -/
def webFormRollOk (r : Int) : Bool :=
  1 ≤ r

/-! ### Store operations

Each CLI handler mutates the dict and calls `save_grades`; we return
the new store, whether a save was performed, and the reported outcome. -/

/-- The user-visible outcome of a store operation. -/
inductive Outcome where
  | ok : Outcome
  | duplicateRoll : Outcome
  | rollNotFound : Outcome
  | cancelled : Outcome
  deriving DecidableEq

/-- `add_grades(grades)` after the roll and marks have been read:
duplicate roll → error message, nothing mutated, nothing saved;
otherwise `grades[roll] = marks` followed by `save_grades`. -/
def add_grades (g : Store) (roll : Int) (marks : List ℚ) :
    Store × Bool × Outcome :=
  if hasRoll g roll then (g, false, .duplicateRoll)
  else (dictSet g roll marks, true, .ok)

/-- `update_grades(grades)` after the roll and marks have been read:
absent roll → error message, nothing mutated, nothing saved; otherwise
`grades[roll] = marks` followed by `save_grades`. -/
def update_grades (g : Store) (roll : Int) (marks : List ℚ) :
    Store × Bool × Outcome :=
  if hasRoll g roll then (dictSet g roll marks, true, .ok)
  else (g, false, .rollNotFound)

/-- `delete_grades(grades)` with `confirm` the raw answer to the
confirmation prompt: the record is deleted and saved only when
`confirm.strip().lower() == 'y'`. -/
def delete_grades (g : Store) (roll : Int) (confirm : String) :
    Store × Bool × Outcome :=
  if hasRoll g roll then
    if pyLower (pyStrip confirm) = "y" then (dictDel g roll, true, .ok)
    else (g, false, .cancelled)
  else (g, false, .rollNotFound)

/-! ### Listing (`view_all_grades` / export / web table) -/

/-- `sorted(grades.keys())`. -/
def sortedKeys (g : Store) : List Int :=
  List.insertionSort (fun a b => a ≤ b) (g.map Prod.fst)

/-- The rows printed by `view_all_grades` (also the rows of
`export_report` and, roll-sorted, of `grades_to_dataframe`): one row
per record in ascending roll order, carrying the record's marks and the
`calculate_stats` total and average. -/
def view_all_rows (g : Store) : List (Int × List ℚ × ℚ × ℚ) :=
  (sortedKeys g).map (fun roll =>
    let marks := (lookupRoll g roll).getD []
    let st := calculate_stats marks
    (roll, marks, st.1, st.2))

/-! ### Reachable store states

The program starts from `load_grades()` and thereafter mutates the dict
only through the three handlers, whose marks always come from
`get_valid_marks`; the file is rewritten by `save_grades` after every
mutation, so a later session reloads a file the program itself wrote. -/

/-- Store states reachable in a program run (or a chain of runs over the
program-owned backing file). -/
inductive Reachable : Store → Prop where
  | initial : Reachable (load_grades .absent).1
  | reload (g : Store) : Reachable g → Reachable (load_grades (save_grades g)).1
  | add (g : Store) (roll : Int) (ins : List (Option ℚ)) (ms : List ℚ)
      (rest : List (Option ℚ)) : Reachable g →
      get_valid_marks ins = some (ms, rest) →
      Reachable (add_grades g roll ms).1
  | update (g : Store) (roll : Int) (ins : List (Option ℚ)) (ms : List ℚ)
      (rest : List (Option ℚ)) : Reachable g →
      get_valid_marks ins = some (ms, rest) →
      Reachable (update_grades g roll ms).1
  | delete (g : Store) (roll : Int) (confirm : String) : Reachable g →
      Reachable (delete_grades g roll confirm).1

/-! ## Lemmas about the decimal codec -/

theorem charDigit?_digitChar {d : Nat} (hd : d < 10) :
    charDigit? (Nat.digitChar d) = some d := by
  interval_cases d <;> decide

theorem parseNatCore_append (xs ys : List Char) :
    ∀ acc, parseNatCore acc (xs ++ ys) =
      (parseNatCore acc xs).bind (fun a => parseNatCore a ys) := by
  induction xs with
  | nil => intro acc; rfl
  | cons c cs ih =>
      intro acc
      simp only [List.cons_append, parseNatCore]
      cases charDigit? c with
      | none => rfl
      | some d => exact ih (acc * 10 + d)

theorem parseNatCore_toDecimalAux :
    ∀ fuel n acc, n ≤ fuel →
      parseNatCore acc (toDecimalAux fuel n) =
        some (acc * 10 ^ (toDecimalAux fuel n).length + n) := by
  intro fuel
  induction fuel with
  | zero =>
      intro n acc h
      have hn : n = 0 := Nat.le_zero.mp h
      subst hn
      simp [toDecimalAux, parseNatCore]
  | succ f ih =>
      intro n acc h
      by_cases hn : n = 0
      · subst hn
        simp [toDecimalAux, parseNatCore]
      · have hq : n / 10 ≤ f := by omega
        have hmod : n % 10 < 10 := Nat.mod_lt _ (by norm_num)
        have hdm : 10 * (n / 10) + n % 10 = n := Nat.div_add_mod n 10
        rw [toDecimalAux, if_neg hn, parseNatCore_append,
          ih (n / 10) acc hq]
        simp only [Option.some_bind, parseNatCore, charDigit?_digitChar hmod,
          List.length_append, List.length_cons, List.length_nil,
          Nat.zero_add]
        congr 1
        calc (acc * 10 ^ (toDecimalAux f (n / 10)).length + n / 10) * 10
              + n % 10
            = acc * (10 ^ (toDecimalAux f (n / 10)).length * 10)
              + (10 * (n / 10) + n % 10) := by ring
          _ = acc * 10 ^ ((toDecimalAux f (n / 10)).length + 1) + n := by
              rw [hdm, pow_succ]

theorem toDecimalAux_no_minus :
    ∀ fuel n c, c ∈ toDecimalAux fuel n → c ≠ '-' := by
  intro fuel
  induction fuel with
  | zero => intro n c hc; simp [toDecimalAux] at hc
  | succ f ih =>
      intro n c hc
      by_cases hn : n = 0
      · subst hn; simp [toDecimalAux] at hc
      · rw [toDecimalAux, if_neg hn] at hc
        rcases List.mem_append.mp hc with h | h
        · exact ih _ _ h
        · have hmod : n % 10 < 10 := Nat.mod_lt _ (by norm_num)
          have hcd : c = Nat.digitChar (n % 10) := by
            simpa using h
          subst hcd
          interval_cases h10 : n % 10 <;> decide

theorem parseNat?_toDecimal (n : Nat) :
    parseNat? (toDecimal n) = some n := by
  by_cases hn : n = 0
  · subst hn; decide
  · have hlen := parseNatCore_toDecimalAux (n + 1) n 0 (Nat.le_succ n)
    have hne : toDecimalAux (n + 1) n ≠ [] := by
      rw [toDecimalAux, if_neg hn]
      simp
    unfold toDecimal
    rw [if_neg hn]
    obtain ⟨c, cs, hcons⟩ := List.exists_cons_of_ne_nil hne
    unfold parseNat?
    rw [hcons]
    rw [hcons] at hlen
    simpa using hlen

theorem toDecimal_ne_nil (m : Nat) : toDecimal m ≠ [] := by
  by_cases hm : m = 0
  · subst hm; decide
  · unfold toDecimal
    rw [if_neg hm, toDecimalAux, if_neg hm]
    simp

theorem pyInt?_pyStr (i : Int) : pyInt? (pyStr i) = some i := by
  unfold pyStr
  by_cases hi : i < 0
  · rw [if_pos hi]
    have hstep : pyInt? ⟨'-' :: toDecimal i.natAbs⟩
        = (parseNat? (toDecimal i.natAbs)).map (fun n => -(n : Int)) := rfl
    rw [hstep, parseNat?_toDecimal]
    simp
    rw [abs_of_neg hi]
    ring
  · rw [if_neg hi]
    obtain ⟨c, cs, hcons⟩ := List.exists_cons_of_ne_nil (toDecimal_ne_nil i.toNat)
    have hcm : c ≠ '-' := by
      intro hc
      subst hc
      have hmem : '-' ∈ toDecimal i.toNat := by rw [hcons]; simp
      by_cases hm : i.toNat = 0
      · rw [hm] at hmem; simp [toDecimal] at hmem
      · unfold toDecimal at hmem
        rw [if_neg hm] at hmem
        exact toDecimalAux_no_minus _ _ _ hmem rfl
    rw [hcons]
    have hstep : pyInt? ⟨c :: cs⟩
        = if c = '-' then (parseNat? cs).map (fun n => -(n : Int))
          else (parseNat? (c :: cs)).map (fun n => (n : Int)) := rfl
    rw [hstep, if_neg hcm, ← hcons, parseNat?_toDecimal]
    have htn : ((i.toNat : Int)) = i := by omega
    simp [htn]

/-! ## Lemmas about dict operations -/

theorem hasRoll_iff_mem_keys (g : Store) (r : Int) :
    hasRoll g r = true ↔ r ∈ g.map Prod.fst := by
  induction g with
  | nil => simp [hasRoll, lookupRoll]
  | cons p rest ih =>
      obtain ⟨k, v⟩ := p
      by_cases hk : k = r
      · subst hk
        simp [hasRoll, lookupRoll]
      · simp only [hasRoll, lookupRoll, if_neg hk, List.map_cons,
          List.mem_cons]
        rw [← hasRoll]
        constructor
        · intro h; exact Or.inr (ih.mp h)
        · rintro (h | h)
          · exact absurd h.symm hk
          · exact ih.mpr h

theorem hasRoll_false_iff (g : Store) (r : Int) :
    hasRoll g r = false ↔ r ∉ g.map Prod.fst := by
  rw [← hasRoll_iff_mem_keys]
  simp

theorem lookupRoll_mem (g : Store) (r : Int) (m : List ℚ)
    (h : lookupRoll g r = some m) : (r, m) ∈ g := by
  induction g with
  | nil => simp [lookupRoll] at h
  | cons p rest ih =>
      obtain ⟨k, v⟩ := p
      by_cases hk : k = r
      · subst hk
        rw [lookupRoll, if_pos rfl] at h
        injection h with h
        rw [← h]
        exact List.mem_cons_self _ _
      · rw [lookupRoll, if_neg hk] at h
        exact List.mem_cons_of_mem _ (ih h)

theorem mem_lookupRoll (g : Store) (r : Int) (m : List ℚ)
    (hnd : (g.map Prod.fst).Nodup) (h : (r, m) ∈ g) :
    lookupRoll g r = some m := by
  induction g with
  | nil => simp at h
  | cons p rest ih =>
      obtain ⟨k, v⟩ := p
      simp only [List.map_cons, List.nodup_cons] at hnd
      rcases List.mem_cons.mp h with h1 | h1
      · rw [← h1]
        simp [lookupRoll]
      · have hk : k ≠ r := by
          intro hk
          subst hk
          exact hnd.1 (List.mem_map.mpr ⟨(k, m), h1, rfl⟩)
        rw [lookupRoll, if_neg hk]
        exact ih hnd.2 h1

theorem lookupRoll_dictSet_self (g : Store) (r : Int) (v : List ℚ) :
    lookupRoll (dictSet g r v) r = some v := by
  induction g with
  | nil => simp [dictSet, lookupRoll]
  | cons p rest ih =>
      obtain ⟨k, w⟩ := p
      by_cases hk : k = r
      · simp [dictSet, if_pos hk, lookupRoll]
      · rw [dictSet, if_neg hk, lookupRoll, if_neg hk]
        exact ih

theorem lookupRoll_dictSet_other (g : Store) (r r2 : Int) (v : List ℚ)
    (h : r2 ≠ r) : lookupRoll (dictSet g r v) r2 = lookupRoll g r2 := by
  have hr : ¬ (r = r2) := fun hh => h (Eq.symm hh)
  induction g with
  | nil => simp [dictSet, lookupRoll, hr]
  | cons p rest ih =>
      obtain ⟨k, w⟩ := p
      by_cases hk : k = r
      · subst hk
        rw [dictSet, if_pos rfl, lookupRoll, lookupRoll,
          if_neg hr, if_neg hr]
      · rw [dictSet, if_neg hk, lookupRoll, lookupRoll]
        by_cases hk2 : k = r2
        · rw [if_pos hk2, if_pos hk2]
        · rw [if_neg hk2, if_neg hk2]
          exact ih

theorem dictSet_absent_append (g : Store) (r : Int) (v : List ℚ)
    (h : hasRoll g r = false) : dictSet g r v = g ++ [(r, v)] := by
  induction g with
  | nil => rfl
  | cons p rest ih =>
      obtain ⟨k, w⟩ := p
      simp only [hasRoll, lookupRoll] at h
      by_cases hk : k = r
      · rw [if_pos hk] at h
        simp at h
      · rw [if_neg hk] at h
        rw [dictSet, if_neg hk, List.cons_append]
        congr 1
        exact ih h

theorem mem_dictSet (g : Store) (r : Int) (v : List ℚ) (p : Int × List ℚ)
    (h : p ∈ dictSet g r v) : p ∈ g ∨ p = (r, v) := by
  induction g with
  | nil => simp [dictSet] at h; exact Or.inr h
  | cons q rest ih =>
      obtain ⟨k, w⟩ := q
      by_cases hk : k = r
      · rw [dictSet, if_pos hk] at h
        rcases List.mem_cons.mp h with h1 | h1
        · exact Or.inr h1
        · exact Or.inl (List.mem_cons_of_mem _ h1)
      · rw [dictSet, if_neg hk] at h
        rcases List.mem_cons.mp h with h1 | h1
        · exact Or.inl (h1 ▸ List.mem_cons_self _ _)
        · rcases ih h1 with h2 | h2
          · exact Or.inl (List.mem_cons_of_mem _ h2)
          · exact Or.inr h2

theorem keys_dictSet_present (g : Store) (r : Int) (v : List ℚ)
    (h : hasRoll g r = true) :
    (dictSet g r v).map Prod.fst = g.map Prod.fst := by
  induction g with
  | nil => simp [hasRoll, lookupRoll] at h
  | cons p rest ih =>
      obtain ⟨k, w⟩ := p
      simp only [hasRoll, lookupRoll] at h
      by_cases hk : k = r
      · rw [dictSet, if_pos hk]
        simp [hk]
      · rw [if_neg hk] at h
        rw [dictSet, if_neg hk]
        simp only [List.map_cons]
        congr 1
        exact ih h

theorem dictDel_sublist (g : Store) (r : Int) : (dictDel g r).Sublist g := by
  induction g with
  | nil => simp [dictDel]
  | cons p rest ih =>
      obtain ⟨k, w⟩ := p
      by_cases hk : k = r
      · rw [dictDel, if_pos hk]
        exact List.sublist_cons_self _ _
      · rw [dictDel, if_neg hk]
        exact List.Sublist.cons₂ _ ih

theorem lookupRoll_dictDel_self (g : Store) (r : Int)
    (hnd : (g.map Prod.fst).Nodup) : lookupRoll (dictDel g r) r = none := by
  induction g with
  | nil => rfl
  | cons p rest ih =>
      obtain ⟨k, w⟩ := p
      simp only [List.map_cons, List.nodup_cons] at hnd
      by_cases hk : k = r
      · subst hk
        rw [dictDel, if_pos rfl]
        rcases hres : lookupRoll rest k with _ | m
        · rfl
        · exact absurd (List.mem_map.mpr ⟨(k, m), lookupRoll_mem _ _ _ hres, rfl⟩)
            hnd.1
      · rw [dictDel, if_neg hk, lookupRoll, if_neg hk]
        exact ih hnd.2

/-! ## Round-trip of persistence -/

theorem hasRoll_append (a b : Store) (r : Int) :
    hasRoll (a ++ b) r = (hasRoll a r || hasRoll b r) := by
  induction a with
  | nil => simp [hasRoll, lookupRoll]
  | cons p rest ih =>
      obtain ⟨k, w⟩ := p
      by_cases hk : k = r
      · simp [hasRoll, lookupRoll, if_pos hk]
      · simp only [List.cons_append, hasRoll, lookupRoll, if_neg hk]
        exact ih

theorem loadEntries_saveEntries :
    ∀ g acc : Store, (g.map Prod.fst).Nodup →
      (∀ r, r ∈ g.map Prod.fst → hasRoll acc r = false) →
      loadEntries (saveEntries g) acc = some (acc ++ g) := by
  intro g
  induction g with
  | nil => intro acc _ _; simp [saveEntries, loadEntries]
  | cons p rest ih =>
      intro acc hnd hacc
      obtain ⟨k, v⟩ := p
      simp only [List.map_cons, List.nodup_cons] at hnd
      have hk : hasRoll acc k = false := hacc k (by simp)
      rw [saveEntries, List.map_cons]
      show loadEntries ((pyStr k, v) :: rest.map (fun p => (pyStr p.1, p.2))) acc
          = some (acc ++ (k, v) :: rest)
      rw [loadEntries, pyInt?_pyStr]
      show loadEntries (rest.map (fun p => (pyStr p.1, p.2))) (dictSet acc k v)
          = some (acc ++ (k, v) :: rest)
      rw [dictSet_absent_append acc k v hk]
      have hrest : ∀ r, r ∈ rest.map Prod.fst →
          hasRoll (acc ++ [(k, v)]) r = false := by
        intro r hr
        rw [hasRoll_append]
        have h1 : hasRoll acc r = false := hacc r (by simp [hr])
        have h2 : hasRoll [(k, v)] r = false := by
          have : k ≠ r := by
            intro hk2
            exact hnd.1 (hk2 ▸ hr)
          simp [hasRoll, lookupRoll, this]
        rw [h1, h2]
        rfl
      rw [show loadEntries (rest.map fun p => (pyStr p.1, p.2)) (acc ++ [(k, v)])
            = loadEntries (saveEntries rest) (acc ++ [(k, v)]) from rfl,
        ih (acc ++ [(k, v)]) hnd.2 hrest]
      simp

theorem load_save_roundtrip (g : Store) (hnd : (g.map Prod.fst).Nodup) :
    load_grades (save_grades g) = (g, false) := by
  have h := loadEntries_saveEntries g [] hnd (fun r _ => rfl)
  show (match loadEntries (saveEntries g) [] with
        | some g2 => (g2, false)
        | none => ([], true)) = (g, false)
  rw [h]
  simp

theorem loadEntries_badkey :
    ∀ (entries : List (String × List ℚ)) (acc : Store) (s : String)
      (v : List ℚ), (s, v) ∈ entries → pyInt? s = none →
      loadEntries entries acc = none := by
  intro entries
  induction entries with
  | nil => intro acc s v hm _; simp at hm
  | cons q rest ih =>
      intro acc s v hm hbad
      obtain ⟨s2, v2⟩ := q
      rcases List.mem_cons.mp hm with h1 | h1
      · obtain ⟨hs, _⟩ := Prod.mk.injEq .. ▸ h1
        rw [loadEntries, ← hs, hbad]
      · rw [loadEntries]
        rcases hp : pyInt? s2 with _ | r
        · rfl
        · exact ih (dictSet acc r v2) s v h1 hbad

/-! ## Lemmas about input validation -/

theorem getMark_range :
    ∀ (ins : List (Option ℚ)) (m : ℚ) (rest : List (Option ℚ)),
      getMark ins = some (m, rest) → 0 ≤ m ∧ m ≤ 100 := by
  intro ins
  induction ins with
  | nil => intro m rest h; simp [getMark] at h
  | cons tok ins2 ih =>
      intro m rest h
      cases tok with
      | none => exact ih m rest h
      | some q =>
          by_cases hq : q < 0 ∨ q > 100
          · rw [show getMark (some q :: ins2) =
                if q < 0 ∨ q > 100 then getMark ins2 else some (q, ins2)
                from rfl, if_pos hq] at h
            exact ih m rest h
          · rw [show getMark (some q :: ins2) =
                if q < 0 ∨ q > 100 then getMark ins2 else some (q, ins2)
                from rfl, if_neg hq] at h
            push_neg at hq
            simp only [Option.some.injEq, Prod.mk.injEq] at h
            obtain ⟨rfl, rfl⟩ := h
            exact hq

theorem getMarks_spec :
    ∀ (n : Nat) (ins ms2 : List (Option ℚ)) (ms : List ℚ),
      getMarks n ins = some (ms, ms2) →
      ms.length = n ∧ ∀ m ∈ ms, 0 ≤ m ∧ m ≤ 100 := by
  intro n
  induction n with
  | zero =>
      intro ins ms2 ms h
      rw [getMarks] at h
      simp only [Option.some.injEq, Prod.mk.injEq] at h
      obtain ⟨rfl, rfl⟩ := h
      simp
  | succ n ih =>
      intro ins ms2 ms h
      rw [getMarks] at h
      rcases hg : getMark ins with _ | p
      · simp [hg] at h
      · obtain ⟨m, r1⟩ := p
        rcases hgs : getMarks n r1 with _ | p2
        · simp [hg, hgs] at h
        · obtain ⟨ms0, r2⟩ := p2
          simp only [hg, hgs, Option.some.injEq, Prod.mk.injEq] at h
          obtain ⟨h1, h2⟩ := h
          rw [← h1]
          obtain ⟨ihl, ihr⟩ := ih r1 r2 ms0 hgs
          constructor
          · simp [ihl]
          · intro x hx
            rcases List.mem_cons.mp hx with h3 | h3
            · rw [h3]; exact getMark_range ins m r1 hg
            · exact ihr x h3

/-! ## The length-`NUM_SUBJECTS` store invariant -/

/-- Well-formedness the program maintains: dict keys are unique and
every marks list has exactly `NUM_SUBJECTS` entries. -/
def WF (g : Store) : Prop :=
  (g.map Prod.fst).Nodup ∧ ∀ p ∈ g, p.2.length = NUM_SUBJECTS

theorem WF_dictSet (g : Store) (r : Int) (v : List ℚ) (h : WF g)
    (hv : v.length = NUM_SUBJECTS) : WF (dictSet g r v) := by
  constructor
  · by_cases hr : hasRoll g r = true
    · rw [keys_dictSet_present g r v hr]
      exact h.1
    · have hr2 : hasRoll g r = false := by
        simp only [Bool.not_eq_true] at hr
        exact hr
      rw [dictSet_absent_append g r v hr2, List.map_append]
      rw [List.nodup_append]
      refine ⟨h.1, by simp, ?_⟩
      intro x hx
      simp only [List.map_cons, List.map_nil, List.mem_cons,
        List.not_mem_nil, or_false]
      intro hxr
      rw [hxr] at hx
      exact (hasRoll_false_iff g r).mp hr2 hx
  · intro p hp
    rcases mem_dictSet g r v p hp with h1 | h1
    · exact h.2 p h1
    · rw [h1]
      exact hv

theorem WF_dictDel (g : Store) (r : Int) (h : WF g) : WF (dictDel g r) := by
  constructor
  · exact h.1.sublist ((dictDel_sublist g r).map Prod.fst)
  · intro p hp
    exact h.2 p ((dictDel_sublist g r).subset hp)

theorem reachable_WF : ∀ g, Reachable g → WF g := by
  intro g h
  induction h with
  | initial =>
      refine ⟨?_, ?_⟩
      · show (List.map Prod.fst ([] : Store)).Nodup
        simp
      · intro p hp
        simp [load_grades] at hp
  | reload g2 h2 ih =>
      rw [load_save_roundtrip g2 ih.1]
      exact ih
  | add g2 roll ins ms rest h2 hm ih =>
      have hlen : ms.length = NUM_SUBJECTS :=
        (getMarks_spec NUM_SUBJECTS ins rest ms hm).1
      by_cases hr : hasRoll g2 roll = true
      · simpa [add_grades, hr] using ih
      · simp only [add_grades, hr, if_false, Bool.false_eq_true]
        exact WF_dictSet g2 roll ms ih hlen
  | update g2 roll ins ms rest h2 hm ih =>
      have hlen : ms.length = NUM_SUBJECTS :=
        (getMarks_spec NUM_SUBJECTS ins rest ms hm).1
      by_cases hr : hasRoll g2 roll = true
      · simp only [update_grades, hr, if_true]
        exact WF_dictSet g2 roll ms ih hlen
      · simpa [update_grades, hr] using ih
  | delete g2 roll confirm h2 ih =>
      by_cases hr : hasRoll g2 roll = true
      · by_cases hc : pyLower (pyStrip confirm) = "y"
        · simp only [delete_grades, hr, hc, if_true]
          exact WF_dictDel g2 roll ih
        · simpa [delete_grades, hr, hc] using ih
      · simpa [delete_grades, hr] using ih

/-! ## Lemmas about the sorted listing -/

theorem view_all_rows_keys (g : Store) :
    (view_all_rows g).map (fun x => x.1) = sortedKeys g := by
  unfold view_all_rows
  generalize sortedKeys g = ks
  induction ks with
  | nil => rfl
  | cons k ks ih =>
      simp only [List.map_cons] at ih ⊢
      rw [ih]

/-! ## Claims -/

/-- C1: for every store (with the unique keys every Python dict has),
`save_grades` followed by `load_grades` returns the original store,
roll-for-roll and mark-for-mark, with no warning: the int→string key
conversion on save is exactly undone by the string→int conversion on
load. -/
theorem save_then_load_roundtrip (g : Store)
    (hnd : (g.map Prod.fst).Nodup) :
    load_grades (save_grades g) = (g, false) :=
  load_save_roundtrip g hnd

theorem save_then_load_roundtrip_witness :
    (([((2 : Int), [(80 : ℚ), 90, 70, 60, 100]),
       ((-3 : Int), [(5 : ℚ), 5, 5, 5, 5])].map Prod.fst).Nodup)
    ∧ load_grades (save_grades
        [((2 : Int), [(80 : ℚ), 90, 70, 60, 100]),
         ((-3 : Int), [(5 : ℚ), 5, 5, 5, 5])])
      = ([((2 : Int), [(80 : ℚ), 90, 70, 60, 100]),
          ((-3 : Int), [(5 : ℚ), 5, 5, 5, 5])], false) :=
  ⟨by decide, save_then_load_roundtrip _ (by decide)⟩

/-- C2: `calculate_stats` is pure; the returned total is the sum of the
marks, the returned average is total divided by the number of marks
(and `0` for an empty list), and on `[80, 90, 70, 60, 100]` it returns
total `400` and average `80`. -/
theorem calculate_stats_spec (marks : List ℚ) :
    (calculate_stats marks).1 = marks.sum
    ∧ (marks ≠ [] →
        (calculate_stats marks).2 = marks.sum / (marks.length : ℚ))
    ∧ (marks = [] → (calculate_stats marks).2 = 0)
    ∧ calculate_stats [80, 90, 70, 60, 100] = (400, 80) := by
  refine ⟨rfl, ?_, ?_, ?_⟩
  · intro h
    simp [calculate_stats, h]
  · intro h
    subst h
    rfl
  · norm_num [calculate_stats]

theorem calculate_stats_spec_witness :
    ([(80 : ℚ), 90, 70, 60, 100] ≠ [])
    ∧ (calculate_stats [(80 : ℚ), 90, 70, 60, 100]).2
        = ([(80 : ℚ), 90, 70, 60, 100].sum)
          / (([(80 : ℚ), 90, 70, 60, 100].length : Nat) : ℚ) :=
  ⟨by decide, (calculate_stats_spec [80, 90, 70, 60, 100]).2.1 (by decide)⟩

/-- C3: `add_grades` on a roll already in the dict reports the
duplicate-roll error, mutates nothing and saves nothing; on a fresh
roll it appends the record, saves, and succeeds. -/
theorem add_grades_spec (g : Store) (roll : Int) (marks : List ℚ) :
    (hasRoll g roll = true →
      add_grades g roll marks = (g, false, Outcome.duplicateRoll))
    ∧ (hasRoll g roll = false →
      add_grades g roll marks = (g ++ [(roll, marks)], true, Outcome.ok)
      ∧ lookupRoll (add_grades g roll marks).1 roll = some marks) := by
  constructor
  · intro h
    simp [add_grades, h]
  · intro h
    have h2 : add_grades g roll marks = (dictSet g roll marks, true, .ok) := by
      simp [add_grades, h]
    constructor
    · rw [h2, dictSet_absent_append g roll marks h]
    · rw [h2]
      exact lookupRoll_dictSet_self g roll marks

theorem add_grades_spec_witness :
    add_grades [((1 : Int), [(1 : ℚ), 1, 1, 1, 1])] 1 [(2 : ℚ), 2, 2, 2, 2]
      = ([((1 : Int), [(1 : ℚ), 1, 1, 1, 1])], false, Outcome.duplicateRoll)
    ∧ lookupRoll (add_grades [] (5 : Int) [(2 : ℚ), 2, 2, 2, 2]).1 5
      = some [(2 : ℚ), 2, 2, 2, 2] :=
  ⟨(add_grades_spec [((1 : Int), [(1 : ℚ), 1, 1, 1, 1])] 1
      [(2 : ℚ), 2, 2, 2, 2]).1 rfl,
   ((add_grades_spec [] 5 [(2 : ℚ), 2, 2, 2, 2]).2 rfl).2⟩

/-- C4: on an absent roll both `update_grades` and `delete_grades`
leave the store unchanged, save nothing and report not-found; on a
present roll `update_grades` replaces the whole marks list (other rolls
untouched) and a confirmed `delete_grades` removes the record. -/
theorem update_delete_spec (g : Store) (roll : Int) (marks : List ℚ)
    (confirm : String) (hnd : (g.map Prod.fst).Nodup) :
    (hasRoll g roll = false →
      update_grades g roll marks = (g, false, Outcome.rollNotFound)
      ∧ delete_grades g roll confirm = (g, false, Outcome.rollNotFound))
    ∧ (hasRoll g roll = true →
      lookupRoll (update_grades g roll marks).1 roll = some marks
      ∧ (update_grades g roll marks).2 = (true, Outcome.ok)
      ∧ (∀ r2, r2 ≠ roll →
          lookupRoll (update_grades g roll marks).1 r2 = lookupRoll g r2)
      ∧ (pyLower (pyStrip confirm) = "y" →
          hasRoll (delete_grades g roll confirm).1 roll = false)) := by
  constructor
  · intro h
    constructor
    · simp [update_grades, h]
    · simp [delete_grades, h]
  · intro h
    have h2 : (update_grades g roll marks).1 = dictSet g roll marks := by
      simp [update_grades, h]
    refine ⟨?_, ?_, ?_, ?_⟩
    · rw [h2]
      exact lookupRoll_dictSet_self g roll marks
    · simp [update_grades, h]
    · intro r2 hr2
      rw [h2]
      exact lookupRoll_dictSet_other g roll r2 marks hr2
    · intro hc
      have h3 : (delete_grades g roll confirm).1 = dictDel g roll := by
        simp [delete_grades, h, hc]
      rw [h3]
      simp [hasRoll, lookupRoll_dictDel_self g roll hnd]

theorem update_delete_spec_witness :
    update_grades [((1 : Int), [(1 : ℚ), 1, 1, 1, 1])] 2 [(3 : ℚ), 3, 3, 3, 3]
      = ([((1 : Int), [(1 : ℚ), 1, 1, 1, 1])], false, Outcome.rollNotFound)
    ∧ lookupRoll (update_grades [((1 : Int), [(1 : ℚ), 1, 1, 1, 1])] 1
        [(3 : ℚ), 3, 3, 3, 3]).1 1 = some [(3 : ℚ), 3, 3, 3, 3]
    ∧ hasRoll (delete_grades [((1 : Int), [(1 : ℚ), 1, 1, 1, 1])] 1 "y").1 1
      = false :=
  ⟨((update_delete_spec [((1 : Int), [(1 : ℚ), 1, 1, 1, 1])] 2
      [(3 : ℚ), 3, 3, 3, 3] "y" (by decide)).1 rfl).1,
   ((update_delete_spec [((1 : Int), [(1 : ℚ), 1, 1, 1, 1])] 1
      [(3 : ℚ), 3, 3, 3, 3] "y" (by decide)).2 rfl).1,
   (((update_delete_spec [((1 : Int), [(1 : ℚ), 1, 1, 1, 1])] 1
      [(3 : ℚ), 3, 3, 3, 3] "y" (by decide)).2 rfl).2.2.2 (by decide))⟩

/-- C5: the all-records listing is sorted ascending by roll whatever
the insertion order, covers exactly the stored records, annotates each
with its `calculate_stats` total and average, and in particular rolls
inserted in order `[30, 10, 20]` are listed in order `[10, 20, 30]`. -/
theorem view_all_sorted_spec :
    (∀ g : Store, (g.map Prod.fst).Nodup →
      ((view_all_rows g).map (fun x => x.1)).Sorted (fun a b => a ≤ b)
      ∧ ((view_all_rows g).map (fun x => x.1)).Perm (g.map Prod.fst)
      ∧ (∀ x ∈ view_all_rows g,
          (x.1, x.2.1) ∈ g
          ∧ x.2.2.1 = (calculate_stats x.2.1).1
          ∧ x.2.2.2 = (calculate_stats x.2.1).2)
      ∧ (∀ p ∈ g,
          (p.1, p.2, (calculate_stats p.2).1, (calculate_stats p.2).2)
            ∈ view_all_rows g))
    ∧ ((view_all_rows (add_grades (add_grades (add_grades []
          30 [(50 : ℚ), 60, 70, 80, 90]).1
          10 [(50 : ℚ), 60, 70, 80, 90]).1
          20 [(50 : ℚ), 60, 70, 80, 90]).1).map (fun x => x.1)
        = [10, 20, 30]) := by
  constructor
  · intro g hnd
    refine ⟨?_, ?_, ?_, ?_⟩
    · rw [view_all_rows_keys]
      exact List.sorted_insertionSort _ _
    · rw [view_all_rows_keys]
      exact List.perm_insertionSort _ _
    · intro x hx
      obtain ⟨roll, hroll, rfl⟩ := List.mem_map.mp hx
      have hmem : roll ∈ g.map Prod.fst := by
        have := hroll
        unfold sortedKeys at this
        exact (List.mem_insertionSort _).mp this
      obtain ⟨m, hm⟩ := Option.isSome_iff_exists.mp
        ((hasRoll_iff_mem_keys g roll).mpr hmem)
      refine ⟨?_, rfl, rfl⟩
      show (roll, (lookupRoll g roll).getD []) ∈ g
      rw [hm]
      exact lookupRoll_mem g roll m hm
    · intro p hp
      obtain ⟨r, m⟩ := p
      have hlk : lookupRoll g r = some m := mem_lookupRoll g r m hnd hp
      refine List.mem_map.mpr ⟨r, ?_, by simp [hlk]⟩
      unfold sortedKeys
      exact (List.mem_insertionSort _).mpr (List.mem_map.mpr ⟨(r, m), hp, rfl⟩)
  · decide

theorem view_all_sorted_spec_witness :
    ((view_all_rows [((3 : Int), [(1 : ℚ), 1, 1, 1, 1]),
        ((1 : Int), [(2 : ℚ), 2, 2, 2, 2])]).map
      (fun x => x.1)).Sorted (fun a b => a ≤ b) :=
  (view_all_sorted_spec.1 [((3 : Int), [(1 : ℚ), 1, 1, 1, 1]),
    ((1 : Int), [(2 : ℚ), 2, 2, 2, 2])] (by decide)).1

/-- C6: the mark check of `get_valid_marks` accepts exactly `0` and
exactly `100`, rejects `101`, `-1` and every value outside `[0, 100]`
(the loop re-prompts instead of storing the value), and every marks
list it ever returns lies entirely within `[0, 100]`. -/
theorem mark_validation_spec (rest : List (Option ℚ)) (m : ℚ) :
    getMark (some 0 :: rest) = some (0, rest)
    ∧ getMark (some 100 :: rest) = some (100, rest)
    ∧ getMark (some 101 :: rest) = getMark rest
    ∧ getMark (some (-1) :: rest) = getMark rest
    ∧ ((m < 0 ∨ m > 100) → getMark (some m :: rest) = getMark rest)
    ∧ (∀ ins ms rest2, get_valid_marks ins = some (ms, rest2) →
        ∀ x ∈ ms, 0 ≤ x ∧ x ≤ 100) := by
  refine ⟨?_, ?_, ?_, ?_, ?_, ?_⟩
  · rw [show getMark (some (0 : ℚ) :: rest)
        = if (0 : ℚ) < 0 ∨ (0 : ℚ) > 100 then getMark rest
          else some (0, rest) from rfl,
      if_neg (by norm_num)]
  · rw [show getMark (some (100 : ℚ) :: rest)
        = if (100 : ℚ) < 0 ∨ (100 : ℚ) > 100 then getMark rest
          else some (100, rest) from rfl,
      if_neg (by norm_num)]
  · rw [show getMark (some (101 : ℚ) :: rest)
        = if (101 : ℚ) < 0 ∨ (101 : ℚ) > 100 then getMark rest
          else some (101, rest) from rfl,
      if_pos (by norm_num)]
  · rw [show getMark (some (-1 : ℚ) :: rest)
        = if (-1 : ℚ) < 0 ∨ (-1 : ℚ) > 100 then getMark rest
          else some (-1, rest) from rfl,
      if_pos (by norm_num)]
  · intro h
    rw [show getMark (some m :: rest)
        = if m < 0 ∨ m > 100 then getMark rest
          else some (m, rest) from rfl,
      if_pos h]
  · intro ins ms rest2 h x hx
    exact (getMarks_spec NUM_SUBJECTS ins rest2 ms h).2 x hx

theorem mark_validation_spec_witness :
    getMark [some (-1 : ℚ)] = getMark []
    ∧ ((0 : ℚ) ≤ 50 ∧ (50 : ℚ) ≤ 100) :=
  ⟨(mark_validation_spec [] (-1)).2.2.2.2.1 (Or.inl (by norm_num)),
   (mark_validation_spec [] 0).2.2.2.2.2
     [some 50, some 50, some 50, some 50, some 50]
     [50, 50, 50, 50, 50] [] (by decide) 50 (by decide)⟩

/-- C7: `load_grades` returns an empty store (and no warning) when the
file is absent, and on any corrupt file — undecodable JSON, or a JSON
object with a key `int()` cannot parse — returns an empty store plus a
warning, with no partial recovery. -/
theorem load_failure_spec :
    load_grades FileContent.absent = ([], false)
    ∧ load_grades FileContent.corrupt = ([], true)
    ∧ (∀ (entries : List (String × List ℚ)) (s : String) (v : List ℚ),
        (s, v) ∈ entries → pyInt? s = none →
        load_grades (FileContent.valid entries) = ([], true)) := by
  refine ⟨rfl, rfl, ?_⟩
  intro entries s v hm hbad
  show (match loadEntries entries [] with
        | some g2 => (g2, false)
        | none => ([], true)) = ([], true)
  rw [loadEntries_badkey entries [] s v hm hbad]

theorem load_failure_spec_witness :
    (("x", [(1 : ℚ)]) ∈ [("x", [(1 : ℚ)])])
    ∧ load_grades (FileContent.valid [("x", [(1 : ℚ)])]) = ([], true) :=
  ⟨by decide,
   load_failure_spec.2.2 [("x", [(1 : ℚ)])] "x" [(1 : ℚ)] (by decide)
     (by decide)⟩

/-- C8: in every reachable store state — after loading the
program-owned file and after any sequence of add, update and delete
operations whose marks come from `get_valid_marks` — every record holds
exactly `NUM_SUBJECTS` marks, and every record the program persists does
too. -/
theorem reachable_marks_length (g : Store) (h : Reachable g) :
    (∀ p ∈ g, p.2.length = NUM_SUBJECTS)
    ∧ (∀ q ∈ saveEntries g, q.2.length = NUM_SUBJECTS) := by
  have hwf := reachable_WF g h
  refine ⟨hwf.2, ?_⟩
  intro q hq
  obtain ⟨p, hp, rfl⟩ := List.mem_map.mp hq
  exact hwf.2 p hp

theorem reachable_marks_length_witness :
    (((7 : Int), [(1 : ℚ), 2, 3, 4, 5]) :
      Int × List ℚ).2.length = NUM_SUBJECTS :=
  (reachable_marks_length _
    (Reachable.add [] 7 [some 1, some 2, some 3, some 4, some 5]
      [1, 2, 3, 4, 5] [] Reachable.initial (by decide))).1
    ((7 : Int), [(1 : ℚ), 2, 3, 4, 5]) (by decide)

/-- C9 (counterexample): the confirmation input `"Y"` is a string other
than `"y"`, yet `delete_grades` removes the record and performs a save,
because the code compares `confirm.strip().lower()` with `'y'`. -/
theorem delete_confirm_counterexample :
    ("Y" : String) ≠ "y"
    ∧ hasRoll [((1 : Int), [(1 : ℚ), 2, 3, 4, 5])] 1 = true
    ∧ delete_grades [((1 : Int), [(1 : ℚ), 2, 3, 4, 5])] 1 "Y"
      = ([], true, Outcome.ok) := by
  refine ⟨by decide, rfl, ?_⟩
  decide

/-- C9 (amended): for every present roll, a delete whose confirmation
input does not equal `"y"` after stripping whitespace and lowercasing
leaves the store unchanged and performs no save. -/
theorem delete_confirm_no_mutation (g : Store) (roll : Int)
    (confirm : String) (hp : hasRoll g roll = true)
    (hc : pyLower (pyStrip confirm) ≠ "y") :
    delete_grades g roll confirm = (g, false, Outcome.cancelled) := by
  simp [delete_grades, hp, hc]

theorem delete_confirm_no_mutation_witness :
    delete_grades [((1 : Int), [(1 : ℚ), 2, 3, 4, 5])] 1 "n"
      = ([((1 : Int), [(1 : ℚ), 2, 3, 4, 5])], false, Outcome.cancelled) :=
  delete_confirm_no_mutation [((1 : Int), [(1 : ℚ), 2, 3, 4, 5])] 1 "n"
    rfl (by decide)

/-- C10: the CLI roll prompt accepts any input that parses as an
integer after stripping — zero and negatives included, so the CLI can
create records with non-positive rolls — while the web add form's
number input only admits rolls `≥ 1`. -/
theorem roll_validation_spec :
    (∀ (s : String) (rest : List String) (r : Int),
        pyInt? (pyStrip s) = some r →
        get_valid_roll (s :: rest) = some (r, rest))
    ∧ get_valid_roll ["0"] = some (0, [])
    ∧ get_valid_roll ["-7"] = some (-7, [])
    ∧ add_grades [] (-7) [(1 : ℚ), 2, 3, 4, 5]
      = ([((-7 : Int), [(1 : ℚ), 2, 3, 4, 5])], true, Outcome.ok)
    ∧ webFormRollOk 1 = true
    ∧ webFormRollOk 0 = false
    ∧ (∀ i : Int, i < 1 → webFormRollOk i = false) := by
  refine ⟨?_, by decide, by decide, rfl, rfl, rfl, ?_⟩
  · intro s rest r h
    have hne : pyStrip s ≠ "" := by
      intro he
      rw [he] at h
      exact Option.noConfusion (h.symm.trans (rfl : pyInt? "" = none))
    show (if pyStrip s = "" then get_valid_roll rest
          else match pyInt? (pyStrip s) with
            | some r2 => some (r2, rest)
            | none => get_valid_roll rest) = some (r, rest)
    rw [if_neg hne, h]
  · intro i hi
    exact decide_eq_false (by omega)

theorem roll_validation_spec_witness :
    get_valid_roll [" -7 "] = some (-7, [])
    ∧ webFormRollOk (-7) = false :=
  ⟨roll_validation_spec.1 " -7 " [] (-7) (by decide),
   roll_validation_spec.2.2.2.2.2.2 (-7) (by decide)⟩

end GradeApp
